import Mathlib

/-!
Verification development for the async-task-manager repository.

The repository has two packages:
* `async_task_manager` — the pull model: a `Task` wrapping a coroutine,
  pull strategies (`ConcurrentLimitStrategy`, `DelayedStrategy`,
  `FixedWindowStrategy`) and a polling `TaskManager`;
* `async_rate_limiter` — the gate model: `RateLimitedTaskManager` and the
  `TokenBucketStrategy` gate.

Coroutines are shallowly embedded as `Except E V` values: awaiting the
coroutine either produces a value (`.ok v`) or raises (`.error e`).
Clock readings (`time.time()` / `time.monotonic()`) are rationals supplied
explicitly to each operation.  `asyncio` task state is made explicit:
`asyncio.Event` is a `Bool` flag, and the serialized critical sections
(every mutation of strategy state happens either in the single-threaded
dispatcher loop or under the strategy's lock) are modelled as atomic state
transitions.
-/

namespace AsyncTaskManager

/-- State of `Task` (async_task_manager/task.py): `_result` is the result
slot (initially `None`, i.e. `none`), `_done` the `asyncio.Event` flag.
The slot is typed so that it *could* hold either a value or an error. -/
structure TaskState (V E : Type) where
  result : Option (Except E V)
  done : Bool

/-- `Task.__init__`: the result slot is `None` and the event is unset. -/
def Task.init (V E : Type) : TaskState V E :=
  { result := none, done := false }

/-- `Task.run` (task.py lines 19-27): `try: self._result = await self.coro`
— on success the slot receives the value; on a raise the assignment never
happens — `finally: self._done.set()`, then `return self._result` on the
non-raising path, while a raise propagates to the caller of `run`. -/
def Task.run {V E : Type} (coro : Except E V) (s : TaskState V E) :
    Except E V × TaskState V E :=
  match coro with
  | .ok v => (.ok v, { result := some (.ok v), done := true })
  | .error e => (.error e, { s with done := true })

/-- `Task.wait` (task.py lines 29-34), called once `_done` is set:
`await self._done.wait()` returns at once and the stored `_result` is
returned.  `wait` never raises and never mutates the task. -/
def Task.wait {V E : Type} (s : TaskState V E) : Option (Except E V) :=
  s.result

/-- Whether a call to `Task.wait` suspends its caller:
`await self._done.wait()` suspends exactly while the event is unset. -/
def Task.wait_suspends {V E : Type} (s : TaskState V E) : Bool :=
  !s.done

/-- One call of `Task.wait` on a completed task: returns the slot and
leaves the task untouched (the method only reads `_result`). -/
def Task.waitCall {V E : Type} (s : TaskState V E) :
    Option (Except E V) × TaskState V E :=
  (s.result, s)

/-- `n` successive calls of `Task.wait` on a completed task, collecting the
outcome observed by each waiter. -/
def Task.waitN {V E : Type} : ℕ → TaskState V E →
    List (Option (Except E V)) × TaskState V E
  | 0, s => ([], s)
  | n + 1, s =>
    let (r, s') := Task.waitCall s
    let (rs, s'') := Task.waitN n s'
    (r :: rs, s'')

/-- Python runtime values that can be passed for a numeric parameter. -/
inductive PyNum where
  | int : ℤ → PyNum
  | float : ℚ → PyNum
deriving Repr, DecidableEq

/-- Exceptions raised by the constructors' validators. -/
inductive PyErr where
  | typeError : PyErr
  | valueError : PyErr
deriving Repr, DecidableEq

/-- `ConcurrentLimitStrategy._validate_max_concurrent`
(concurrent_limit.py lines 20-41): `TypeError` unless an `int`,
`ValueError` unless positive. -/
def validate_max_concurrent : PyNum → Except PyErr ℤ
  | .int m => if m ≤ 0 then .error .valueError else .ok m
  | .float _ => .error .typeError

/-- `DelayedStrategy._validate_delay_seconds` (delayed.py lines 21-42):
`TypeError` unless a `float`, `ValueError` unless positive. -/
def validate_delay_seconds : PyNum → Except PyErr ℚ
  | .float d => if d ≤ 0 then .error .valueError else .ok d
  | .int _ => .error .typeError

/-- `FixedWindowStrategy._validate_max_requests`
(fixed_window.py lines 21-29): `TypeError` unless an `int`, `ValueError`
unless positive. -/
def validate_max_requests : PyNum → Except PyErr ℤ
  | .int m => if m ≤ 0 then .error .valueError else .ok m
  | .float _ => .error .typeError

/-- `FixedWindowStrategy._validate_window_seconds`
(fixed_window.py lines 31-39): `TypeError` unless a `float`, `ValueError`
unless positive. -/
def validate_window_seconds : PyNum → Except PyErr ℚ
  | .float w => if w ≤ 0 then .error .valueError else .ok w
  | .int _ => .error .typeError

/-- `FixedWindowStrategy.__init__` (fixed_window.py lines 15-19): validates
both parameters in order; the queues start empty. -/
def FixedWindowStrategy.initChecked (maxRequests windowSeconds : PyNum) :
    Except PyErr (ℤ × ℚ) := do
  let m ← validate_max_requests maxRequests
  let w ← validate_window_seconds windowSeconds
  pure (m, w)

/-- `TokenBucketStrategy.__init__` (async_rate_limiter token_bucket.py
lines 7-11): plain attribute assignment, no validation of any kind —
construction succeeds for every pair of arguments. -/
def TokenBucketStrategy.initChecked (rate interval : PyNum) :
    Except PyErr (PyNum × PyNum) :=
  .ok (rate, interval)

/-- State of `ConcurrentLimitStrategy` (concurrent_limit.py): the validated
bound, the FIFO `tasks` deque (task ids, head = front) and the `running`
counter (a Python `int`, so `ℤ`). -/
structure ConcurrentLimitStrategy where
  max_concurrent : ℤ
  tasks : List ℕ
  running : ℤ
deriving Repr, DecidableEq

/-- `ConcurrentLimitStrategy.add_task` (line 43-44): append to the deque. -/
def ConcurrentLimitStrategy.add_task (s : ConcurrentLimitStrategy)
    (t : ℕ) : ConcurrentLimitStrategy :=
  { s with tasks := s.tasks ++ [t] }

/-- `ConcurrentLimitStrategy.get_next_task` (lines 46-50):
`if self.running < self.max_concurrent and self.tasks: self.running += 1;
return self.tasks.popleft()` else `return None`. -/
def ConcurrentLimitStrategy.get_next_task (s : ConcurrentLimitStrategy) :
    Option ℕ × ConcurrentLimitStrategy :=
  if s.running < s.max_concurrent then
    match s.tasks with
    | [] => (none, s)
    | t :: rest => (some t, { s with running := s.running + 1, tasks := rest })
  else (none, s)

/-- `ConcurrentLimitStrategy.get_sleep_interval` (lines 52-55): `None`
("wait indefinitely" per the code comment) when `running >=
max_concurrent`, else `0`. -/
def ConcurrentLimitStrategy.get_sleep_interval
    (s : ConcurrentLimitStrategy) : Option ℚ :=
  if s.max_concurrent ≤ s.running then none else some 0

/-- `ConcurrentLimitStrategy.on_task_done` (lines 57-59): decrement
`running` under the lock. -/
def ConcurrentLimitStrategy.on_task_done (s : ConcurrentLimitStrategy) :
    ConcurrentLimitStrategy :=
  { s with running := s.running - 1 }

/-- How `TaskManager.run` (manager.py lines 25-29) turns the strategy's
sleep hint into an actual sleep duration: `None` falls back to the
manager's `poll_interval`, a number is slept as-is. -/
def TaskManager.resolve_sleep (poll_interval : ℚ) (interval : Option ℚ) :
    ℚ :=
  match interval with
  | none => poll_interval
  | some i => i

/-- Dispatcher-level simulation state for the pull model with a
`ConcurrentLimitStrategy`: the strategy state plus the ordered log of task
ids on which `Task.run` was invoked. -/
structure ManagerState where
  strat : ConcurrentLimitStrategy
  runLog : List ℕ
deriving Repr, DecidableEq

/-- `TaskManager.add_task` (manager.py lines 14-17): wraps the coroutine in
a `Task`, hands it to the strategy (`self.strategy.add_task(task)`) and
then immediately `return await task.run()` — so the call itself invokes
`Task.run` on the new task before returning. -/
def TaskManager.add_task (m : ManagerState) (tid : ℕ) : ManagerState :=
  { strat := m.strat.add_task tid, runLog := m.runLog ++ [tid] }

/-- Value-level behaviour of `TaskManager.add_task` on the task it creates:
the task starts in `Task.init` state and the call returns
`await task.run()`, with the task's state when `add_task` returns. -/
def TaskManager.add_task_value {V E : Type} (coro : Except E V) :
    Except E V × TaskState V E :=
  Task.run coro (Task.init V E)

/-- One iteration of the `TaskManager.run` loop (manager.py lines 21-24)
restricted to its dispatch effect: poll `strategy.get_next_task()`; when a
task is returned, `asyncio.create_task(self._execute_task(task))` starts
`task.run()` (line 38) on it. -/
def TaskManager.runIteration (m : ManagerState) : ManagerState :=
  match m.strat.get_next_task with
  | (some t, s') => { strat := s', runLog := m.runLog ++ [t] }
  | (none, s') => { strat := s', runLog := m.runLog }

/-- `TaskManager._execute_task` (manager.py lines 37-39):
`await task.run()` then `await self.strategy.on_task_done()`.  There is no
try/finally: when `task.run()` raises, the second line is never reached.
Returns the strategy state afterwards together with the number of
`on_task_done` notifications delivered. -/
def TaskManager.execute_task {V E : Type} (coro : Except E V)
    (s : ConcurrentLimitStrategy) : ConcurrentLimitStrategy × ℕ :=
  match (Task.run coro (Task.init V E)).1 with
  | .ok _ => (s.on_task_done, 1)
  | .error _ => (s, 0)

/-- State of `RateLimitedTaskManager` (async_rate_limiter/manager.py)
restricted to its queue of wrapped tasks (ids). -/
structure RateLimitedTaskManager where
  queue : List ℕ
deriving Repr, DecidableEq

/-- `RateLimitedTaskManager.add_task` (manager.py lines 17-19): wraps the
coroutine and appends it to the manager's queue; nothing is executed and
the method returns at once (it is not even a coroutine function). -/
def RateLimitedTaskManager.add_task (m : RateLimitedTaskManager) (tid : ℕ) :
    RateLimitedTaskManager :=
  { queue := m.queue ++ [tid] }

/-- State of `FixedWindowStrategy` (fixed_window.py): the validated bound
and window length, the FIFO `tasks` deque (ids) and the `request_times`
deque of recorded admission timestamps (head = oldest). -/
structure FixedWindowStrategy where
  max_requests : ℕ
  window_seconds : ℚ
  tasks : List ℕ
  request_times : List ℚ
deriving Repr, DecidableEq

/-- The pruning loop of `FixedWindowStrategy.get_next_task`
(fixed_window.py lines 47-48): pop from the left while
`now - request_times[0] >= window_seconds`. -/
def fwPrune (w now : ℚ) : List ℚ → List ℚ
  | [] => []
  | t :: ts => if w ≤ now - t then fwPrune w now ts else t :: ts

/-- `FixedWindowStrategy.add_task` (lines 41-42): append to the deque. -/
def FixedWindowStrategy.add_task (s : FixedWindowStrategy) (t : ℕ) :
    FixedWindowStrategy :=
  { s with tasks := s.tasks ++ [t] }

/-- `FixedWindowStrategy.get_next_task` (lines 44-53), with the clock
reading `now = time.time()` passed explicitly: prune old requests, then
`if len(self.request_times) < self.max_requests and self.tasks:
self.request_times.append(now); return self.tasks.popleft()`, else
`return None`. -/
def FixedWindowStrategy.get_next_task (s : FixedWindowStrategy)
    (now : ℚ) : Option ℕ × FixedWindowStrategy :=
  let rt := fwPrune s.window_seconds now s.request_times
  if rt.length < s.max_requests then
    match s.tasks with
    | [] => (none, { s with request_times := rt })
    | t :: rest =>
      (some t, { s with request_times := rt ++ [now], tasks := rest })
  else (none, { s with request_times := rt })

/-- An event seen by a `FixedWindowStrategy` along a run: a client enqueue
(`add_task`) or a dispatcher poll (`get_next_task`) at a clock reading. -/
inductive FWEvent where
  | enqueue : ℕ → FWEvent
  | poll : ℚ → FWEvent
deriving Repr, DecidableEq

/-- The clock readings of the poll events of a trace, in order. -/
def pollTimes (events : List FWEvent) : List ℚ :=
  events.filterMap fun e =>
    match e with
    | .poll t => some t
    | .enqueue _ => none

/-- One event applied to a `FixedWindowStrategy`, returning the new state
and the admission timestamps produced (the poll's clock reading when a
task was admitted, nothing otherwise). -/
def fwStep (s : FixedWindowStrategy) : FWEvent →
    FixedWindowStrategy × List ℚ
  | .enqueue t => (s.add_task t, [])
  | .poll now =>
    match s.get_next_task now with
    | (some _, s') => (s', [now])
    | (none, s') => (s', [])

/-- A whole trace of events applied to a `FixedWindowStrategy`: the final
state and the ordered list of admission timestamps. -/
def fwRun (s : FixedWindowStrategy) : List FWEvent →
    FixedWindowStrategy × List ℚ
  | [] => (s, [])
  | e :: es =>
    let (s', a) := fwStep s e
    let (sf, rest) := fwRun s' es
    (sf, a ++ rest)

/-- State of `TokenBucketStrategy` (async_rate_limiter token_bucket.py):
the configured rate and interval and the deque of recorded admission
timestamps (head = oldest). -/
structure TokenBucketStrategy where
  rate : ℕ
  interval : ℚ
  timestamps : List ℚ
deriving Repr, DecidableEq

/-- The pruning loop of `TokenBucketStrategy.allow` (token_bucket.py line
17-18): pop from the left while `now - timestamps[0] > interval`
(strictly greater — an entry exactly `interval` old is kept). -/
def tbPrune (i now : ℚ) : List ℚ → List ℚ
  | [] => []
  | t :: ts => if i < now - t then tbPrune i now ts else t :: ts

/-- `TokenBucketStrategy.allow` (token_bucket.py lines 13-24) under the
idealized clock: the whole body runs under `self.lock`; `now` is the
`time.monotonic()` reading on entry.  After pruning, if at least `rate`
timestamps remain it sleeps once for `interval - (now - timestamps[0])`
(no re-check afterwards) and then appends the post-sleep clock reading;
otherwise it appends `now` immediately.  Sleeping is modelled as advancing
the clock by exactly the requested duration (which is non-negative after
the prune).  Returns the new state and the clock reading recorded — the
admission instant at which `allow` returns.  (With `rate = 0` and an empty
record the Python code would raise `IndexError` on `timestamps[0]`; that
branch is unreachable here and modelled as an immediate admission.) -/
def TokenBucketStrategy.allow (s : TokenBucketStrategy) (now : ℚ) :
    TokenBucketStrategy × ℚ :=
  let ts := tbPrune s.interval now s.timestamps
  if s.rate ≤ ts.length then
    match ts with
    | [] => ({ s with timestamps := ts ++ [now] }, now)
    | t0 :: _ =>
      let wake := now + (s.interval - (now - t0))
      ({ s with timestamps := ts ++ [wake] }, wake)
  else ({ s with timestamps := ts ++ [now] }, now)

/-- `n` back-to-back calls of `allow` as issued by the gate-model worker
loop (`RateLimitedTaskManager._worker` awaits `strategy.allow()` before
each dispatch): each call starts at the instant the previous one returned.
Returns the ordered list of admission instants. -/
def tbRunCalls (s : TokenBucketStrategy) (now : ℚ) : ℕ → List ℚ
  | 0 => []
  | n + 1 =>
    let (s', adm) := s.allow now
    adm :: tbRunCalls s' adm n

/-- Whether an admission instant `t` lies inside the trailing window of
length `w` ending at `lo + w`, i.e. in the half-open interval
`(lo, lo + w]`. -/
def inWindow (lo w t : ℚ) : Bool :=
  decide (lo < t ∧ t ≤ lo + w)

/-- C1: the claim says `Task.run` is invoked at most once per task, and in
particular that enqueueing a task and then running the dispatcher loop
never starts the same task's work a second time.  The code violates this:
`TaskManager.add_task` hands the task to the strategy *and* immediately
awaits `task.run()`, after which one iteration of the dispatcher loop
pops the very same task from the strategy and invokes `task.run()` again
in `_execute_task` — the run log for task `0` has two entries. -/
theorem taskManager_run_invoked_twice_on_enqueued_task :
    (TaskManager.runIteration
        (TaskManager.add_task ⟨⟨1, [], 0⟩, []⟩ 0)).runLog = [0, 0] ∧
    ¬ ((TaskManager.runIteration
        (TaskManager.add_task ⟨⟨1, [], 0⟩, []⟩ 0)).runLog.count 0 ≤ 1) := by
  decide

/-- C2: the claim says the enqueue call returns without executing the unit
of work and without suspending the caller until the work completes.  For
the pull model the code violates this: `TaskManager.add_task` logs a
`Task.run` invocation of the enqueued task during the call, the task is
already completed (`done = true`) when `add_task` returns, and the value
returned is the executed work's result rather than an unexecuted handle.
The gate model's `RateLimitedTaskManager.add_task` only appends to the
queue, as claimed. -/
theorem taskManager_add_task_executes_work_before_returning :
    (TaskManager.add_task ⟨⟨1, [], 0⟩, []⟩ 0).runLog = [0]
  ∧ (TaskManager.add_task_value (V := ℕ) (E := ℕ) (.ok 42)).2.done = true
  ∧ (TaskManager.add_task_value (V := ℕ) (E := ℕ) (.ok 42)).1 = .ok 42
  ∧ (RateLimitedTaskManager.add_task ⟨[]⟩ 0).queue = [0] := by
  refine ⟨by decide, rfl, rfl, by decide⟩

/-- C3: the claim says the strategy's `on_task_done` notification fires
exactly once per dispatched task regardless of outcome.  The code violates
this: `_execute_task` has no try/finally, so when the task's work raises,
`on_task_done` is never invoked and the concurrency-cap `running` counter
stays at `1` (capacity leak); on success the notification fires once and
the counter drops to `0`. -/
theorem execute_task_skips_notification_on_failure :
    TaskManager.execute_task (V := Unit) (E := Unit) (.error ()) ⟨1, [], 1⟩
      = (⟨1, [], 1⟩, 0)
  ∧ TaskManager.execute_task (V := Unit) (E := Unit) (.ok ()) ⟨1, [], 1⟩
      = (⟨1, [], 0⟩, 1) := by
  refine ⟨rfl, rfl⟩

/-- C4 counterexample: for the work `.error 7`, `Task.run` propagates the
error and sets the completion event, but the result slot stays `none` —
the error is *not* stored — and `Task.wait` returns `none` to waiters
instead of re-raising the stored error. -/
theorem task_run_does_not_store_error :
    (Task.run (V := ℕ) (E := ℕ) (.error 7) (Task.init ℕ ℕ)).1 = .error 7
  ∧ (Task.run (V := ℕ) (E := ℕ) (.error 7) (Task.init ℕ ℕ)).2.done = true
  ∧ (Task.run (V := ℕ) (E := ℕ) (.error 7) (Task.init ℕ ℕ)).2.result = none
  ∧ Task.wait (Task.run (V := ℕ) (E := ℕ) (.error 7) (Task.init ℕ ℕ)).2
      = none := by
  refine ⟨rfl, rfl, rfl, rfl⟩

/-- C4 amended: when the unit of work raises, `Task.run` signals completion
and propagates the error to its caller, but it leaves the result slot
untouched (still unset for a fresh task), and `Task.wait` subsequently
hands every waiter that untouched slot rather than raising the error. -/
theorem task_run_error_amended {V E : Type} (e : E) (s : TaskState V E) :
    Task.run (.error e) s = (.error e, { s with done := true })
  ∧ (Task.run (.error e) s).2.result = s.result
  ∧ Task.wait (Task.run (.error e) s).2 = s.result := by
  refine ⟨rfl, rfl, rfl⟩

/-- C5 counterexample: `TokenBucketStrategy.__init__` performs no
validation, so construction with a zero or negative rate/interval
succeeds instead of raising a configuration error. -/
theorem tokenBucket_init_accepts_nonpositive :
    TokenBucketStrategy.initChecked (.int 0) (.float 1)
      = .ok (.int 0, .float 1)
  ∧ TokenBucketStrategy.initChecked (.int (-5)) (.float (-1))
      = .ok (.int (-5), .float (-1)) := by
  refine ⟨rfl, rfl⟩

/-- C5 amended: the three pull-model constructors validate synchronously —
`max_concurrent`, `delay_seconds`, `max_requests` and `window_seconds`
each succeed exactly on a positive value of the annotated type and raise a
configuration error (TypeError/ValueError) otherwise, with the fixed
window validating both of its parameters — while `TokenBucketStrategy`
performs no validation and accepts every pair of arguments. -/
theorem constructor_validation_amended :
    (∀ v, (validate_max_concurrent v).isOk = true ↔
        ∃ m : ℤ, v = .int m ∧ 0 < m)
  ∧ (∀ v, (validate_delay_seconds v).isOk = true ↔
        ∃ d : ℚ, v = .float d ∧ 0 < d)
  ∧ (∀ v, (validate_max_requests v).isOk = true ↔
        ∃ m : ℤ, v = .int m ∧ 0 < m)
  ∧ (∀ v, (validate_window_seconds v).isOk = true ↔
        ∃ w : ℚ, v = .float w ∧ 0 < w)
  ∧ (∀ m w, (FixedWindowStrategy.initChecked m w).isOk = true ↔
        ((validate_max_requests m).isOk = true ∧
         (validate_window_seconds w).isOk = true))
  ∧ (∀ r i, (TokenBucketStrategy.initChecked r i).isOk = true) := by
  refine ⟨?_, ?_, ?_, ?_, ?_, fun r i => rfl⟩
  · intro v
    cases v with
    | int m =>
      by_cases hm : m ≤ 0 <;>
        simp [validate_max_concurrent, hm, Except.isOk, Except.toBool] <;>
        omega
    | float q => simp [validate_max_concurrent, Except.isOk, Except.toBool]
  · intro v
    cases v with
    | float d =>
      by_cases hd : d ≤ 0 <;>
        simp [validate_delay_seconds, hd, Except.isOk, Except.toBool] <;>
        linarith
    | int m => simp [validate_delay_seconds, Except.isOk, Except.toBool]
  · intro v
    cases v with
    | int m =>
      by_cases hm : m ≤ 0 <;>
        simp [validate_max_requests, hm, Except.isOk, Except.toBool] <;>
        omega
    | float q => simp [validate_max_requests, Except.isOk, Except.toBool]
  · intro v
    cases v with
    | float w =>
      by_cases hw : w ≤ 0 <;>
        simp [validate_window_seconds, hw, Except.isOk, Except.toBool] <;>
        linarith
    | int m => simp [validate_window_seconds, Except.isOk, Except.toBool]
  · intro m w
    cases h1 : validate_max_requests m <;>
      cases h2 : validate_window_seconds w <;>
        simp [FixedWindowStrategy.initChecked, h1, h2, Except.isOk,
          Except.toBool, Except.bind, bind, pure, Except.pure]

/-- C6: `ConcurrentLimitStrategy.get_next_task` returns a task iff
`running < max_concurrent` and the queue is non-empty; when it does it
returns the head of the FIFO queue, removes it, and reserves the admission
slot by incrementing `running`; when it returns `none` the whole state is
unchanged. -/
theorem concurrentLimit_get_next_task_spec (s : ConcurrentLimitStrategy) :
    (s.get_next_task.1 ≠ none ↔
        s.running < s.max_concurrent ∧ s.tasks ≠ [])
  ∧ (s.get_next_task.1 ≠ none →
        s.get_next_task.1 = s.tasks.head? ∧
        s.get_next_task.2.tasks = s.tasks.tail ∧
        s.get_next_task.2.running = s.running + 1 ∧
        s.get_next_task.2.max_concurrent = s.max_concurrent)
  ∧ (s.get_next_task.1 = none → s.get_next_task.2 = s) := by
  by_cases h : s.running < s.max_concurrent <;>
    cases ht : s.tasks <;>
      simp [ConcurrentLimitStrategy.get_next_task, h, ht]

/-- Witness for C6 at concrete states: with capacity 2, queue `[5, 6]` and
nothing running, polling admits the head task `5` and bumps `running` to
`1`; at capacity the state is returned unchanged. -/
theorem concurrentLimit_get_next_task_spec_witness :
    (⟨2, [5, 6], 0⟩ : ConcurrentLimitStrategy).get_next_task.1 = some 5
  ∧ (⟨2, [5, 6], 0⟩ : ConcurrentLimitStrategy).get_next_task.2.running = 1
  ∧ (⟨1, [7], 1⟩ : ConcurrentLimitStrategy).get_next_task.2
      = ⟨1, [7], 1⟩ := by
  obtain ⟨-, hsome, -⟩ := concurrentLimit_get_next_task_spec ⟨2, [5, 6], 0⟩
  obtain ⟨-, -, hnone⟩ := concurrentLimit_get_next_task_spec ⟨1, [7], 1⟩
  have ha := hsome (by decide)
  refine ⟨by simpa using ha.1, by simpa using ha.2.2.1, hnone (by decide)⟩

/-- C9 counterexample: with spare capacity (`running = 0 < 1`),
`get_sleep_interval` returns `some 0`, not the claimed `none`; the `none`
signal is returned in the opposite situation, at capacity. -/
theorem concurrentLimit_sleep_signal_counterexample :
    (⟨1, [], 0⟩ : ConcurrentLimitStrategy).get_sleep_interval = some 0
  ∧ ¬ ((⟨1, [], 0⟩ : ConcurrentLimitStrategy).get_sleep_interval = none)
  ∧ (⟨1, [], 1⟩ : ConcurrentLimitStrategy).get_sleep_interval = none := by
  refine ⟨rfl, by decide, rfl⟩

/-- C9 amended: the encodings are the other way round —
`get_sleep_interval` returns `0` ("check again immediately") while
`running < max_concurrent` and `none` (no finite hint) when at capacity;
the dispatcher sleeps the returned `0` (no added delay) in the first case
and falls back to its bounded `poll_interval` idle sleep in the second. -/
theorem concurrentLimit_sleep_signal_amended
    (s : ConcurrentLimitStrategy) (p : ℚ) :
    (s.running < s.max_concurrent →
        s.get_sleep_interval = some 0 ∧
        TaskManager.resolve_sleep p s.get_sleep_interval = 0)
  ∧ (s.max_concurrent ≤ s.running →
        s.get_sleep_interval = none ∧
        TaskManager.resolve_sleep p s.get_sleep_interval = p) := by
  by_cases h : s.max_concurrent ≤ s.running <;>
    simp [ConcurrentLimitStrategy.get_sleep_interval,
      TaskManager.resolve_sleep, h]

/-- Witness for C9 amended at concrete states: capacity 1 with nothing
running sleeps `0`; at capacity the dispatcher falls back to its
`poll_interval` of `1/100`. -/
theorem concurrentLimit_sleep_signal_amended_witness :
    TaskManager.resolve_sleep (1 / 100)
      (⟨1, [], 0⟩ : ConcurrentLimitStrategy).get_sleep_interval = 0
  ∧ TaskManager.resolve_sleep (1 / 100)
      (⟨1, [], 1⟩ : ConcurrentLimitStrategy).get_sleep_interval
      = 1 / 100 := by
  have h1 := (concurrentLimit_sleep_signal_amended ⟨1, [], 0⟩ (1 / 100)).1
    (by decide)
  have h2 := (concurrentLimit_sleep_signal_amended ⟨1, [], 1⟩ (1 / 100)).2
    (by decide)
  exact ⟨h1.2, h2.2⟩

/-- Helper for C10: `n` successive `wait` calls on a task all read the same
result slot and leave the task unchanged. -/
theorem waitN_eq {V E : Type} (s : TaskState V E) (n : ℕ) :
    Task.waitN n s = (List.replicate n s.result, s) := by
  induction n with
  | zero => rfl
  | succ n ih => simp [Task.waitN, Task.waitCall, ih, List.replicate_succ]

/-- C10: after a task completes (whatever the outcome of its work), every
`wait` call returns without suspending — the completion event is set — and
any number `n` of repeated calls all observe the identical stored outcome,
the task's result slot, leaving the task unchanged. -/
theorem task_wait_idempotent {V E : Type} (coro : Except E V) (n : ℕ) :
    Task.wait_suspends (Task.run coro (Task.init V E)).2 = false
  ∧ (Task.waitN n (Task.run coro (Task.init V E)).2).1 =
      List.replicate n (Task.run coro (Task.init V E)).2.result
  ∧ (Task.waitN n (Task.run coro (Task.init V E)).2).2 =
      (Task.run coro (Task.init V E)).2 := by
  refine ⟨?_, by rw [waitN_eq], by rw [waitN_eq]⟩
  cases coro <;> rfl

/-- Unfolding of `fwRun` on a cons: the step's admissions come first. -/
theorem fwRun_cons (s : FixedWindowStrategy) (e : FWEvent)
    (es : List FWEvent) :
    fwRun s (e :: es) =
      ((fwRun (fwStep s e).1 es).1,
        (fwStep s e).2 ++ (fwRun (fwStep s e).1 es).2) := by
  rcases h : fwStep s e with ⟨s', a⟩
  rcases h2 : fwRun s' es with ⟨sf, rest⟩
  simp [fwRun, h, h2]

/-- On a sorted timestamp record, the front-pruning loop of the fixed
window strategy removes exactly the timestamps aged `window_seconds` or
more, i.e. it computes the filter keeping timestamps newer than
`now - w`. -/
theorem fwPrune_sorted_eq_filter (w now : ℚ) (l : List ℚ)
    (hl : l.Sorted (· ≤ ·)) :
    fwPrune w now l = l.filter (fun t => decide (now - w < t)) := by
  induction l with
  | nil => rfl
  | cons t ts ih =>
    rw [List.sorted_cons] at hl
    by_cases h : w ≤ now - t
    · have ht : ¬ (now - w < t) := by linarith
      simp only [fwPrune, if_pos h, List.filter_cons,
        decide_eq_true_eq, if_neg ht]
      simpa using ih hl.2
    · have ht : now - w < t := by linarith
      have hrest : ts.filter (fun x => decide (now - w < x)) = ts :=
        List.filter_eq_self.mpr fun x hx => by
          have := hl.1 x hx
          simp only [decide_eq_true_eq]
          linarith
      simp only [fwPrune, if_neg h, List.filter_cons, decide_eq_true_eq,
        if_pos ht, hrest]

/-- Filtering with a higher cutoff subsumes filtering with a lower one. -/
theorem filter_gt_filter_gt (c c' : ℚ) (h : c ≤ c') (l : List ℚ) :
    (l.filter (fun t => decide (c < t))).filter
        (fun t => decide (c' < t)) =
      l.filter (fun t => decide (c' < t)) := by
  rw [List.filter_filter]
  apply List.filter_congr
  intro x _
  by_cases hx : c' < x
  · have hcx : c < x := lt_of_le_of_lt h hx
    simp [hx, hcx]
  · simp [hx]

/-- Invariant-carrying induction for the fixed-window bound.  Along a run
whose poll clock readings are nondecreasing, provided the admissions so
far (`adms`) are sorted, are all in the past of every upcoming poll, have
at most `N` in every trailing window of length `W`, and the strategy's
recorded timestamps are exactly the admissions newer than a cutoff `c`
lying at least `W` before every upcoming poll with at most `N` of them,
then the full admission list still has at most `N` admissions in every
trailing window of length `W`, and the final recorded timestamps number at
most `N`. -/
theorem fwRun_bound_aux (N : ℕ) (W : ℚ) (hW : 0 < W) :
    ∀ (events : List FWEvent) (tasks : List ℕ) (adms : List ℚ) (c : ℚ),
      adms.Sorted (· ≤ ·) →
      (∀ p ∈ pollTimes events, c + W ≤ p) →
      (∀ a ∈ adms, ∀ p ∈ pollTimes events, a ≤ p) →
      (pollTimes events).Sorted (· ≤ ·) →
      (adms.filter (fun t => decide (c < t))).length ≤ N →
      (∀ lo, adms.countP (inWindow lo W) ≤ N) →
      (∀ lo,
        (adms ++ (fwRun
            ⟨N, W, tasks, adms.filter (fun t => decide (c < t))⟩
            events).2).countP (inWindow lo W) ≤ N)
      ∧ (fwRun ⟨N, W, tasks, adms.filter (fun t => decide (c < t))⟩
            events).1.request_times.length ≤ N := by
  intro events
  induction events with
  | nil =>
    intro tasks adms c _ _ _ _ hlen hwin
    refine ⟨fun lo => ?_, hlen⟩
    simpa [fwRun] using hwin lo
  | cons e es ih =>
    intro tasks adms c hadms hcut hpast hpoll hlen hwin
    cases e with
    | enqueue t =>
      have hstep : fwStep ⟨N, W, tasks,
          adms.filter (fun x => decide (c < x))⟩ (.enqueue t) =
          (⟨N, W, tasks ++ [t], adms.filter (fun x => decide (c < x))⟩,
            []) := rfl
      rw [fwRun_cons, hstep]
      have hcut' : ∀ p ∈ pollTimes es, c + W ≤ p := by
        intro p hp; exact hcut p (by simpa [pollTimes] using hp)
      have hpast' : ∀ a ∈ adms, ∀ p ∈ pollTimes es, a ≤ p := by
        intro a ha p hp; exact hpast a ha p (by simpa [pollTimes] using hp)
      have hpoll' : (pollTimes es).Sorted (· ≤ ·) := by
        simpa [pollTimes] using hpoll
      simpa using ih (tasks ++ [t]) adms c hadms hcut' hpast' hpoll'
        hlen hwin
    | poll now =>
      have hnow_mem : now ∈ pollTimes (.poll now :: es) := by
        simp [pollTimes]
      have hpoll_cons :
          pollTimes (FWEvent.poll now :: es) = now :: pollTimes es := by
        simp [pollTimes]
      have hnow_le : ∀ p ∈ pollTimes es, now ≤ p := by
        rw [hpoll_cons, List.sorted_cons] at hpoll
        exact hpoll.1
      have hpoll' : (pollTimes es).Sorted (· ≤ ·) := by
        rw [hpoll_cons, List.sorted_cons] at hpoll
        exact hpoll.2
      have hcnow : c + W ≤ now := hcut now hnow_mem
      have hcut' : ∀ p ∈ pollTimes es, (now - W) + W ≤ p := by
        intro p hp
        have := hnow_le p hp
        linarith
      have hpast' : ∀ a ∈ adms, ∀ p ∈ pollTimes es, a ≤ p := by
        intro a ha p hp
        exact hpast a ha p (by simp [hpoll_cons, hp])
      -- the recorded timestamps are sorted, so pruning is a filter,
      -- and re-filtering with the fresh cutoff collapses
      have hsorted_rt :
          (adms.filter (fun x => decide (c < x))).Sorted (· ≤ ·) :=
        hadms.sublist (List.filter_sublist adms)
      have hprune : fwPrune W now (adms.filter (fun x => decide (c < x)))
          = adms.filter (fun x => decide (now - W < x)) := by
        rw [fwPrune_sorted_eq_filter W now _ hsorted_rt]
        exact filter_gt_filter_gt c (now - W) (by linarith) adms
      have hlen' :
          (adms.filter (fun x => decide (now - W < x))).length ≤ N := by
        calc (adms.filter (fun x => decide (now - W < x))).length
            = (fwPrune W now
                (adms.filter (fun x => decide (c < x)))).length := by
              rw [hprune]
          _ ≤ (adms.filter (fun x => decide (c < x))).length := by
              rw [fwPrune_sorted_eq_filter W now _ hsorted_rt]
              exact List.Sublist.length_le (List.filter_sublist _)
          _ ≤ N := hlen
      by_cases hadmit :
          (adms.filter (fun x => decide (now - W < x))).length < N ∧
            tasks ≠ []
      · -- an admission happens at `now`
        obtain ⟨hroom, htasks⟩ := hadmit
        obtain ⟨t, rest, rfl⟩ := List.exists_cons_of_ne_nil htasks
        have hstep : fwStep ⟨N, W, t :: rest,
            adms.filter (fun x => decide (c < x))⟩ (.poll now) =
            (⟨N, W, rest,
              adms.filter (fun x => decide (now - W < x)) ++ [now]⟩,
              [now]) := by
          simp [fwStep, FixedWindowStrategy.get_next_task, hprune, hroom]
        rw [fwRun_cons, hstep]
        have hpast_now : ∀ a ∈ adms, a ≤ now := fun a ha =>
          hpast a ha now hnow_mem
        have hadms' : (adms ++ [now]).Sorted (· ≤ ·) :=
          List.pairwise_append.mpr
            ⟨hadms, List.pairwise_singleton _ _,
              fun a ha b hb => by
                rw [List.mem_singleton] at hb
                exact hb ▸ hpast_now a ha⟩
        have hfilter_app :
            (adms ++ [now]).filter (fun x => decide (now - W < x)) =
              adms.filter (fun x => decide (now - W < x)) ++ [now] := by
          rw [List.filter_append]
          congr 1
          simp only [List.filter_cons, decide_eq_true_eq]
          rw [if_pos (by linarith)]
          rfl
        have hpast'' : ∀ a ∈ adms ++ [now], ∀ p ∈ pollTimes es, a ≤ p := by
          intro a ha p hp
          rcases List.mem_append.mp ha with h | h
          · exact hpast' a h p hp
          · rw [List.mem_singleton] at h
            exact h ▸ hnow_le p hp
        have hlen'' : ((adms ++ [now]).filter
            (fun x => decide (now - W < x))).length ≤ N := by
          rw [hfilter_app, List.length_append]
          simpa using hroom
        have hwin' : ∀ lo, (adms ++ [now]).countP (inWindow lo W) ≤ N := by
          intro lo
          rw [List.countP_append]
          by_cases hin : inWindow lo W now = true
          · have hin' : lo < now ∧ now ≤ lo + W := by
              simpa [inWindow] using hin
            have hlo : now - W ≤ lo := by linarith [hin'.2]
            have hmono : adms.countP (inWindow lo W) ≤
                adms.countP (fun x => decide (now - W < x)) := by
              apply List.countP_mono_left
              intro x _ hx
              have hx' : lo < x ∧ x ≤ lo + W := by
                simpa [inWindow] using hx
              exact decide_eq_true_eq.mpr (lt_of_le_of_lt hlo hx'.1)
            have hlt : adms.countP (fun x => decide (now - W < x)) < N := by
              rw [List.countP_eq_length_filter]
              exact hroom
            have hsing : List.countP (inWindow lo W) [now] = 1 := by
              simp [hin]
            omega
          · rw [Bool.not_eq_true] at hin
            have hsing : List.countP (inWindow lo W) [now] = 0 := by
              simp [hin]
            have := hwin lo
            omega
        have := ih rest (adms ++ [now]) (now - W) hadms' hcut' hpast''
          hpoll' (hfilter_app ▸ hlen'') hwin'
        rw [hfilter_app] at this
        refine ⟨fun lo => ?_, this.2⟩
        have h1 := (this.1) lo
        simpa [List.append_assoc] using h1
      · -- no admission: either no room or no queued task
        have hstep : fwStep ⟨N, W, tasks,
            adms.filter (fun x => decide (c < x))⟩ (.poll now) =
            (⟨N, W, tasks,
              adms.filter (fun x => decide (now - W < x))⟩, []) := by
          rcases not_and_or.mp hadmit with hfull | hempty
          · push_neg at hfull
            have : ¬ (adms.filter
                (fun x => decide (now - W < x))).length < N := by omega
            simp only [fwStep, FixedWindowStrategy.get_next_task, hprune]
            rw [if_neg this]
          · push_neg at hempty
            subst hempty
            simp only [fwStep, FixedWindowStrategy.get_next_task, hprune]
            by_cases hroom :
                (adms.filter (fun x => decide (now - W < x))).length < N <;>
              simp [hroom]
        rw [fwRun_cons, hstep]
        simpa using ih tasks adms (now - W) hadms hcut' hpast' hpoll'
          hlen' hwin

/-- C7: fixed-window admission bound.  Starting from a fresh
`FixedWindowStrategy` (no recorded timestamps) with any initial queue, for
any trace of enqueues and polls whose poll clock readings are
nondecreasing and any positive window length `W`, every trailing window
`(lo, lo + W]` contains at most `max_requests` admission instants, and the
recorded-timestamp count never exceeds `max_requests` after the run. -/
theorem fixedWindow_trailing_window_bound (N : ℕ) (W : ℚ)
    (tasks0 : List ℕ) (events : List FWEvent) (hW : 0 < W)
    (hsorted : (pollTimes events).Sorted (· ≤ ·)) (lo : ℚ) :
    (fwRun ⟨N, W, tasks0, []⟩ events).2.countP (inWindow lo W) ≤ N
  ∧ (fwRun ⟨N, W, tasks0, []⟩ events).1.request_times.length ≤ N := by
  have hhead : ∀ p ∈ pollTimes events, (pollTimes events).headD 0 ≤ p := by
    cases h : pollTimes events with
    | nil => intro p hp; simp at hp
    | cons q qs =>
      intro p hp
      have hs : List.Sorted (· ≤ ·) (q :: qs) := h ▸ hsorted
      rw [List.sorted_cons] at hs
      rcases List.mem_cons.mp hp with rfl | hp'
      · simp
      · simpa using hs.1 p hp'
  have := fwRun_bound_aux N W hW events tasks0 []
    ((pollTimes events).headD 0 - W)
    (List.sorted_nil)
    (fun p hp => by have := hhead p hp; linarith)
    (fun a ha => absurd ha (List.not_mem_nil a))
    hsorted
    (by simp)
    (fun lo' => by simp)
  rw [List.filter_nil] at this
  exact ⟨by simpa using this.1 lo, this.2⟩

/-- Witness for C7: with `max_requests = 1`, `window_seconds = 1`, four
queued tasks and polls at times `0, 0, 1, 2`, the trailing window
`(0, 1]` holds at most one admission and at most one timestamp stays
recorded. -/
theorem fixedWindow_trailing_window_bound_witness :
    (fwRun ⟨1, 1, [10, 11, 12, 13], []⟩
        [.poll 0, .poll 0, .poll 1, .poll 2]).2.countP (inWindow 0 1) ≤ 1
  ∧ (fwRun ⟨1, 1, [10, 11, 12, 13], []⟩
        [.poll 0, .poll 0, .poll 1, .poll 2]).1.request_times.length
      ≤ 1 :=
  fixedWindow_trailing_window_bound 1 1 [10, 11, 12, 13]
    [.poll 0, .poll 0, .poll 1, .poll 2] (by norm_num)
    (by simp [pollTimes, List.sorted_cons]) 0

/-- C8: the claim says `allow` re-checks in a loop after sleeping, so that
any trailing interval of length `interval` sees at most `rate` admissions
and the record never holds more than `rate` unexpired entries.  The code
violates this: after its single sleep it appends its timestamp with no
re-check, and an entry exactly `interval` old is not pruned (strict
comparison), so with `rate = 2`, `interval = 1` and five back-to-back
calls starting at clock `0`, the admissions fall at `0, 0, 1, 1, 1` —
three admissions inside the trailing interval `(0, 1]` — and the record
ends up holding five entries, 3 of them unexpired at clock `1`. -/
theorem tokenBucket_allow_exceeds_rate :
    tbRunCalls ⟨2, 1, []⟩ 0 5 = [0, 0, 1, 1, 1]
  ∧ 2 < (tbRunCalls ⟨2, 1, []⟩ 0 5).countP (inWindow 0 1) := by
  have h : tbRunCalls ⟨2, 1, []⟩ 0 5 = [0, 0, 1, 1, 1] := by
    norm_num [tbRunCalls, TokenBucketStrategy.allow, tbPrune]
  refine ⟨h, ?_⟩
  rw [h]
  norm_num [inWindow, List.countP_cons]

end AsyncTaskManager
